import Mathlib

/-!
Verification development for the ChainSystemPro Bitcoin primitives library.

Go source files are embedded shallowly: Go strings become `List Char`,
byte slices become `List Nat` with values below 256, unsigned machine
integers become `Nat` with explicit `% 2^32` / `% 2^64` where Go
arithmetic can wrap, and fallible functions return `Except`/`Option`.
External library primitives (SHA-256, RIPEMD-160, BIP-39/BIP-32
key-stretching, secp256k1) are not part of the repository; where a claim
depends on them they are modelled from the specification, each such
definition carrying a doc comment that names what is modelled.
-/

/-- Go strings are embedded as lists of characters. -/
abbrev Str := List Char

/-- The apostrophe character (`0x27`), the hardened-path marker. -/
def apo : Char := Char.ofNat 39

/-- The Go `uint32` modulus 2^32. -/
def W32 : Nat := 4294967296

/-- The Go `uint64` modulus 2^64. -/
def W64 : Nat := 18446744073709551616

/-- Embeds `binary.Write(buf, binary.LittleEndian, x)` for a `uint16`. -/
def uint16LE (n : Nat) : List Nat :=
  [n % 256, n / 256 % 256]

/-- Embeds `binary.Write(buf, binary.LittleEndian, x)` for a `uint32`. -/
def uint32LE (n : Nat) : List Nat :=
  [n % 256, n / 256 % 256, n / 65536 % 256, n / 16777216 % 256]

/-- Embeds `binary.Write(buf, binary.LittleEndian, x)` for a `uint64`. -/
def uint64LE (n : Nat) : List Nat :=
  [n % 256, n / 256 % 256, n / 65536 % 256, n / 16777216 % 256,
   n / 4294967296 % 256, n / 1099511627776 % 256,
   n / 281474976710656 % 256, n / 72057594037927936 % 256]

/-- Embeds `writeVarInt` from `pkg/bitcoin/transaction.go`: Bitcoin
variable-length integer (one byte below `0xFD`; `0xFD`+2-byte LE up to
`0xFFFF`; `0xFE`+4-byte LE up to `0xFFFFFFFF`; else `0xFF`+8-byte LE). -/
def writeVarInt (n : Nat) : List Nat :=
  if n < 253 then [n]
  else if n ≤ 65535 then 253 :: uint16LE n
  else if n ≤ 4294967295 then 254 :: uint32LE n
  else 255 :: uint64LE n

/-- Value of a hex digit character, `none` for a non-hex character
(mirrors the per-character validation of Go `encoding/hex`). -/
def hexDigitVal (c : Char) : Option Nat :=
  if 48 ≤ c.toNat ∧ c.toNat ≤ 57 then some (c.toNat - 48)
  else if 97 ≤ c.toNat ∧ c.toNat ≤ 102 then some (c.toNat - 87)
  else if 65 ≤ c.toNat ∧ c.toNat ≤ 70 then some (c.toNat - 55)
  else none

/-- Embeds `hex.DecodeString`: decodes pairs of hex digits; fails on odd
length or on any non-hex character. -/
def hexDecode : Str → Option (List Nat)
  | [] => some []
  | [_] => none
  | c1 :: c2 :: rest =>
    match hexDigitVal c1, hexDigitVal c2, hexDecode rest with
    | some h, some l, some bs => some ((h * 16 + l) :: bs)
    | _, _, _ => none

/-- Lowercase hex digit character for a value below 16
(Go `encoding/hex` uses the lowercase alphabet). -/
def hexChar (n : Nat) : Char :=
  if n < 10 then Char.ofNat (48 + n) else Char.ofNat (87 + n)

/-- Embeds `hex.EncodeToString`: two lowercase hex digits per byte. -/
def hexEncode (bs : List Nat) : Str :=
  (bs.map (fun b => [hexChar (b / 16), hexChar (b % 16)])).flatten

/-- A character of the lowercase-hex alphabet `[0-9a-f]`. -/
def isLowerHexDigit (c : Char) : Bool :=
  (48 ≤ c.toNat && c.toNat ≤ 57) || (97 ≤ c.toNat && c.toNat ≤ 102)

/-- Modelled from the spec: the external `crypto/sha256` primitive
(not part of this repository). The spec uses only that SHA-256 is a
deterministic function producing a 32-byte digest; this model has
exactly those properties, not the real compression function. -/
def sha256Model (bs : List Nat) : List Nat :=
  (List.range 32).map
    (fun i => bs.foldl (fun a b => (a * 131 + b + i * 17) % 256) ((i * 53 + 7) % 256))

/-- Embeds `doubleSHA256` from `pkg/encoding/base58.go`: SHA-256 applied twice. -/
def doubleSHA256 (data : List Nat) : List Nat :=
  sha256Model (sha256Model data)

/-- The Base58 alphabet used by the external btcsuite `base58` package. -/
def b58Alphabet : List Char :=
  "123456789ABCDEFGHJKLMNPQRSTUVWXYZabcdefghijkmnopqrstuvwxyz".data

/-- Base-`b` digits of `n`, least significant first, with explicit fuel so
the definition reduces inside the kernel. `digitsFuel b n n` agrees with
`Nat.digits b n` (lemma `digitsFuel_eq_digits` below); it embeds the
`for x > 0 { digit := x mod b; x := x div b }` loops of the btcsuite
base58 codec and of `big.Int.Bytes`. -/
def digitsFuel (b : Nat) : Nat → Nat → List Nat
  | 0, _ => []
  | _ + 1, 0 => []
  | fuel + 1, n + 1 => (n + 1) % b :: digitsFuel b fuel ((n + 1) / b)

/-- Embeds `big.Int.SetBytes`: big-endian bytes to a natural number. -/
def beBytesToNat (bs : List Nat) : Nat :=
  bs.foldl (fun a b => a * 256 + b) 0

/-- Number of leading zero bytes of a byte slice (the btcsuite encoder
emits one leading alphabet-zero character per leading zero byte). -/
def leadingZeroCount : List Nat → Nat
  | [] => 0
  | b :: rest => if b = 0 then leadingZeroCount rest + 1 else 0

/-- Embeds `base58.Encode` from the external btcsuite package: base-58 digits of
the big-endian value, most significant first, preceded by one `'1'` per
leading zero byte. -/
def b58Encode (bs : List Nat) : Str :=
  List.replicate (leadingZeroCount bs) '1'
    ++ ((digitsFuel 58 (beBytesToNat bs) (beBytesToNat bs)).map
          (fun d => b58Alphabet.getD d '1')).reverse

/-- Index of a character in a list, mirroring the btcsuite 256-entry
reverse-lookup table (255 marks an invalid character, here `none`). -/
def indexInList (c : Char) : List Char → Option Nat
  | [] => none
  | d :: rest => if c = d then some 0 else (indexInList c rest).map (· + 1)

/-- Reverse lookup of a Base58 character. -/
def b58CharVal (c : Char) : Option Nat :=
  indexInList c b58Alphabet

/-- Character-wise reverse lookup of a Base58 string; `none` as soon as
one character is invalid (the btcsuite decoder returns `[]` then). -/
def b58ParseVals : Str → Option (List Nat)
  | [] => some []
  | c :: rest =>
    match b58CharVal c, b58ParseVals rest with
    | some v, some vs => some (v :: vs)
    | _, _ => none

/-- Number of leading `'1'` characters of a Base58 string. -/
def leadingOneCount : Str → Nat
  | [] => 0
  | c :: rest => if c = '1' then leadingOneCount rest + 1 else 0

/-- Embeds `base58.Decode` from the external btcsuite package: folds the base-58
digit values into a big integer, takes its minimal big-endian bytes, and
prepends one zero byte per leading `'1'`; any invalid character yields
the empty slice. -/
def b58Decode (s : Str) : List Nat :=
  match b58ParseVals s with
  | none => []
  | some vs =>
    let n := vs.foldl (fun a v => a * 58 + v) 0
    List.replicate (leadingOneCount s) 0 ++ (digitsFuel 256 n n).reverse

/-- Embeds `EncodeBase58Check` from `pkg/encoding/base58.go`: prepend the version
byte, append the first four bytes of the double-SHA-256 checksum, and
Base58-encode the whole buffer. -/
def EncodeBase58Check (version : Nat) (payload : List Nat) : Str :=
  let versionedPayload := version :: payload
  let checksum := (doubleSHA256 versionedPayload).take 4
  let fullPayload := versionedPayload ++ checksum
  b58Encode fullPayload

/-- Errors of `DecodeBase58Check` (`errors.New`/`fmt.Errorf` sites). -/
inductive B58Error
  | tooShort
  | checksumMismatch
deriving DecidableEq

/-- Embeds `DecodeBase58Check` from `pkg/encoding/base58.go`: Base58-decode,
require at least 5 bytes, split version / payload / 4-byte checksum and
verify the checksum over the rest. -/
def DecodeBase58Check (encoded : Str) : Except B58Error (Nat × List Nat) :=
  let decoded := b58Decode encoded
  if decoded.length < 5 then .error .tooShort
  else
    let version := decoded.headD 0
    let payload := (decoded.drop 1).take (decoded.length - 5)
    let checksumReceived := decoded.drop (decoded.length - 4)
    let checksumCalculated := (doubleSHA256 (decoded.take (decoded.length - 4))).take 4
    if checksumReceived = checksumCalculated then .ok (version, payload)
    else .error .checksumMismatch

deriving instance DecidableEq for Except

/-- Embeds `strings.Split(s, "/")`: slash-separated pieces, keeping empties. -/
def splitSlash : Str → List Str
  | [] => [[]]
  | c :: rest =>
    let r := splitSlash rest
    if c = '/' then [] :: r
    else
      match r with
      | h :: t => (c :: h) :: t
      | [] => [[c]]

/-- Embeds `strconv.ParseUint(s, 10, 32)`: decimal digits only, value below
2^32; `none` on an empty string, a non-digit character, or range
overflow. -/
def parseUint32 (s : Str) : Option Nat :=
  if s = [] then none
  else if s.all (fun c => c.isDigit) then
    let n := s.foldl (fun a c => a * 10 + (c.toNat - 48)) 0
    if n < W32 then some n else none
  else none

/-- Modelled from the spec: a BIP-32 extended key of the external
`tyler-smith/go-bip32` package. The spec states that the master key is a
deterministic function of the seed and that `NewChildKey(index)`
"deterministically produces exactly one child per index"; the model
records the seed and the child-index path, which has exactly those
properties. The negligible-probability invalid-key failure of child
derivation is not modelled, so the error-propagation branches guarded by
it are dead in this embedding. -/
structure BKey where
  seed : List Nat
  childPath : List Nat
deriving DecidableEq

/-- Modelled from the spec: `bip32.NewMasterKey(seed)`. -/
def newMasterKey (seed : List Nat) : BKey :=
  { seed := seed, childPath := [] }

/-- Modelled from the spec: `key.NewChildKey(childIdx)` (see `BKey`). -/
def NewChildKey (k : BKey) (childIdx : Nat) : BKey :=
  { k with childPath := k.childPath ++ [childIdx] }

/-- Embeds `bip32.FirstHardenedChild` (2^31). -/
def FirstHardenedChild : Nat := 2147483648

/-- Embeds `HDWallet` from the crypto package. -/
structure HDWallet where
  masterKey : BKey
  mnemonic : Str
deriving DecidableEq

/-- Split on a separator character, keeping empties. -/
def splitChar (sep : Char) : Str → List Str
  | [] => [[]]
  | c :: rest =>
    let r := splitChar sep rest
    if c = sep then [] :: r
    else
      match r with
      | h :: t => (c :: h) :: t
      | [] => [[c]]

/-- Embeds `strings.Fields` restricted to the space character: maximal runs of
non-space characters. -/
def fieldsSplit (s : Str) : List Str :=
  (splitChar ' ' s).filter (fun w => !w.isEmpty)

/-- Modelled from the spec: `bip39.IsMnemonicValid` (external package).
BIP-39 validity (fixed 2048-word list plus entropy checksum) is
abstracted to its word-count shape; the claims settled against it use
only that it is a deterministic pure predicate of the phrase. -/
def isMnemonicValidModel (mnemonic : Str) : Bool :=
  [12, 15, 18, 21, 24].contains (fieldsSplit mnemonic).length

/-- Errors of `ValidateMnemonic` (`fmt.Errorf` sites). -/
inductive MnemonicError
  | emptyMnemonic
  | invalidMnemonic
deriving DecidableEq

/-- Embeds `ValidateMnemonic` from the crypto package. -/
def ValidateMnemonic (mnemonic : Str) : Except MnemonicError Unit :=
  if mnemonic = [] then .error .emptyMnemonic
  else if isMnemonicValidModel mnemonic then .ok ()
  else .error .invalidMnemonic

/-- Modelled from the spec: `bip39.NewSeed` — the 2048-round
PBKDF2-HMAC-SHA512 over (phrase, "mnemonic"+passphrase) producing a
64-byte seed. Modelled as a deterministic 64-byte mixing function; the
claims settled against it use only determinism. -/
def newSeedModel (mnemonic passphrase : Str) : List Nat :=
  let material := mnemonic.map Char.toNat ++ [0] ++ passphrase.map Char.toNat
  (List.range 64).map (fun i => material.foldl (fun a b => (a * 257 + b + i) % 256) i)

/-- Embeds `MnemonicToSeed` from the crypto package: fail fast on an invalid
mnemonic, then derive the seed. -/
def MnemonicToSeed (mnemonic passphrase : Str) : Except MnemonicError (List Nat) :=
  match ValidateMnemonic mnemonic with
  | .error e => .error e
  | .ok _ => .ok (newSeedModel mnemonic passphrase)

/-- Errors of `NewHDWallet`. -/
inductive WalletError
  | mnemonicErr (e : MnemonicError)
deriving DecidableEq

/-- Embeds `NewHDWallet` from the crypto package: validate the mnemonic, derive
the seed, then the master key. (The `bip32.NewMasterKey` zero-key
failure is not modelled; see `BKey`.) -/
def NewHDWallet (mnemonic passphrase : Str) : Except WalletError HDWallet :=
  match ValidateMnemonic mnemonic with
  | .error e => .error (.mnemonicErr e)
  | .ok _ =>
    match MnemonicToSeed mnemonic passphrase with
    | .error e => .error (.mnemonicErr e)
    | .ok seed => .ok { masterKey := newMasterKey seed, mnemonic := mnemonic }

/-- Errors of `DerivePath` / `ValidatePath` (`fmt.Errorf` sites). -/
inductive PathError
  | emptyPath
  | missingM
  | emptySegment (pos : Nat)
  | invalidIndex (pos : Nat)
  | badFormat
deriving DecidableEq

/-- The per-segment loop of `DerivePath`: strip an optional trailing
apostrophe (`strings.HasSuffix` / `TrimSuffix` with `"'"` — note the Go
code checks only the apostrophe here, not `h`), parse the decimal index
with `ParseUint(_, 10, 32)`, add `FirstHardenedChild` in wrapping
`uint32` arithmetic when hardened, and derive the child key. -/
def derivePathLoop : BKey → List Str → Nat → Except PathError BKey
  | key, [], _ => .ok key
  | key, seg :: rest, i =>
    if seg = [] then .error (.emptySegment i)
    else
      let hardened : Bool := seg.getLast? == some apo
      let indexStr := if hardened then seg.dropLast else seg
      match parseUint32 indexStr with
      | none => .error (.invalidIndex i)
      | some index =>
        let childIndex := if hardened then (index + FirstHardenedChild) % W32 else index
        derivePathLoop (NewChildKey key childIndex) rest (i + 1)

/-- Embeds `HDWallet.DerivePath` from the crypto package. -/
def DerivePath (w : HDWallet) (path : Str) : Except PathError BKey :=
  if path = [] then .error .emptyPath
  else if path.take 2 ≠ ['m', '/'] then .error .missingM
  else
    let rest := path.drop 2
    if rest = [] then .ok w.masterKey
    else derivePathLoop w.masterKey (splitSlash rest) 0

/-- State machine of the regular expression `^m(/\d+['h]?)*$` used by
`ValidatePath` (after the leading `m`): state 0 expects a group start
`/` or the end, state 1 the first digit of a group, state 2 is inside a
digit run. -/
def pathRegexAux : Nat → Str → Bool
  | 0, [] => true
  | 0, c :: rest => if c = '/' then pathRegexAux 1 rest else false
  | 1, [] => false
  | 1, c :: rest => if c.isDigit then pathRegexAux 2 rest else false
  | 2, [] => true
  | 2, c :: rest =>
    if c.isDigit then pathRegexAux 2 rest
    else if c = apo ∨ c = 'h' then pathRegexAux 0 rest
    else if c = '/' then pathRegexAux 1 rest
    else false
  | _ + 3, _ => false

/-- Embeds `ValidatePath` from the crypto package: empty and `m/`-prefix
checks, then the path regular expression (which accepts both `'` and
`h` as hardened markers). -/
def ValidatePath (path : Str) : Except PathError Unit :=
  if path = [] then .error .emptyPath
  else if path.take 2 ≠ ['m', '/'] then .error .missingM
  else if pathRegexAux 0 (path.drop 1) then .ok ()
  else .error .badFormat

/-- Embeds `AddressType` from the crypto package (a Go string type). -/
abbrev AddressType := String

def AddressTypeP2PKH : AddressType := "P2PKH"

def AddressTypeP2SH : AddressType := "P2SH"

def AddressTypeP2WPKH : AddressType := "P2WPKH"

/-- Embeds `AddressType.Purpose`: the BIP-44 purpose for the address type; the
Go `switch` falls through to 44 for any unknown value. -/
def Purpose (t : AddressType) : Nat :=
  if t = AddressTypeP2PKH then 44
  else if t = AddressTypeP2SH then 49
  else if t = AddressTypeP2WPKH then 84
  else 44

/-- Decimal digit characters of `n` (`fmt.Sprintf` with `%d`). -/
def natToChars (n : Nat) : Str :=
  if n = 0 then ['0']
  else ((digitsFuel 10 n n).map (fun d => Char.ofNat (48 + d))).reverse

/-- Embeds `HDAccount` from the crypto package. -/
structure HDAccount where
  key : BKey
  path : Str
  coinType : Nat
  account : Nat
  addressType : AddressType
deriving DecidableEq

/-- Embeds `HDWallet.DeriveAccount`: formats `m/purpose'/coinType'/account'`
and derives it with `DerivePath`. -/
def DeriveAccount (w : HDWallet) (coinType account : Nat) (t : AddressType) :
    Except PathError HDAccount :=
  let purpose := Purpose t
  let path := ['m', '/'] ++ natToChars purpose ++ [apo, '/'] ++ natToChars coinType
    ++ [apo, '/'] ++ natToChars account ++ [apo]
  match DerivePath w path with
  | .error e => .error e
  | .ok key =>
    .ok { key := key, path := path, coinType := coinType,
          account := account, addressType := t }

/-- Modelled from the spec: the serialized private-key bytes of a
derived key (`bip32.Key.Key` through `btcec.PrivKeyFromBytes` and
`Serialize`) — a deterministic function of the derivation inputs. -/
def privateKeyBytes (k : BKey) : List Nat :=
  (k.seed ++ 0 :: k.childPath).map (fun b => b % 256)

/-- Modelled from the spec: `SerializeCompressed` of the derived public
key — a deterministic 33-byte-shaped function of the private key. -/
def publicKeyBytes (k : BKey) : List Nat :=
  2 :: (privateKeyBytes k).map (fun b => (b * 7 + 3) % 256)

/-- Embeds `HDAddress` from the crypto package. -/
structure HDAddress where
  key : BKey
  publicKey : List Nat
  privateKey : List Nat
  path : Str
deriving DecidableEq

/-- Embeds `HDAccount.DeriveAddress`: two further non-hardened child
derivations (`change`, then `index`), key-pair conversion, and the
extended path string. (`NewChildKey` failures are not modelled; see
`BKey`.) -/
def DeriveAddress (a : HDAccount) (change index : Nat) : HDAddress :=
  let changeKey := NewChildKey a.key change
  let addressKey := NewChildKey changeKey index
  { key := addressKey
    publicKey := publicKeyBytes addressKey
    privateKey := privateKeyBytes addressKey
    path := a.path ++ ['/'] ++ natToChars change ++ ['/'] ++ natToChars index }

/-- Modelled from the spec: RIPEMD-160 (external `golang.org/x/crypto`
package) — a deterministic 20-byte digest. -/
def ripemd160Model (bs : List Nat) : List Nat :=
  (List.range 20).map
    (fun i => bs.foldl (fun a b => (a * 167 + b + i * 29) % 256) ((i * 31 + 11) % 256))

/-- Embeds `hash160` from `pkg/bitcoin`: SHA-256 then RIPEMD-160. -/
def hash160 (data : List Nat) : List Nat :=
  ripemd160Model (sha256Model data)

/-- Embeds `pubKeyToP2PKH` from `pkg/bitcoin` on mainnet: Base58Check of the
hash160 of the public key under version byte `0x00`. -/
def pubKeyToP2PKHMainnet (pubKey : List Nat) : Str :=
  EncodeBase58Check 0 (hash160 pubKey)

/-- Embeds `TxInput` from `pkg/bitcoin/transaction.go`. -/
structure TxInput where
  PrevTxID : Str
  PrevVout : Nat
  ScriptSig : List Nat
  Sequence : Nat
deriving DecidableEq

/-- Embeds `TxOutput` from `pkg/bitcoin/transaction.go`. -/
structure TxOutput where
  Amount : Nat
  ScriptPubKey : List Nat
deriving DecidableEq

/-- Embeds `Transaction` from `pkg/bitcoin/transaction.go`. -/
structure Transaction where
  Version : Nat
  Inputs : List TxInput
  Outputs : List TxOutput
  Locktime : Nat
deriving DecidableEq

/-- Error of `Transaction.Serialize` (`invalid txid` site). -/
inductive SerError
  | invalidTxid
deriving DecidableEq

/-- The input loop of `Transaction.Serialize`: per input, append the
hex-decoded previous txid reversed (the Go code writes it byte by byte,
last first), the vout (4 bytes LE), the var-int script length, the
script, and the sequence (4 bytes LE); fail on invalid txid hex. -/
def serializeInputs (buf : List Nat) : List TxInput → Except SerError (List Nat)
  | [] => .ok buf
  | inp :: rest =>
    match hexDecode inp.PrevTxID with
    | none => .error .invalidTxid
    | some txidBytes =>
      serializeInputs
        (buf ++ txidBytes.reverse ++ uint32LE inp.PrevVout
          ++ writeVarInt inp.ScriptSig.length ++ inp.ScriptSig
          ++ uint32LE inp.Sequence) rest

/-- The output loop of `Transaction.Serialize`: per output, the amount
(8 bytes LE), the var-int script length, and the script. -/
def serializeOutputs (buf : List Nat) : List TxOutput → List Nat
  | [] => buf
  | o :: rest =>
    serializeOutputs
      (buf ++ uint64LE o.Amount ++ writeVarInt o.ScriptPubKey.length
        ++ o.ScriptPubKey) rest

/-- Embeds `Transaction.Serialize` from `pkg/bitcoin/transaction.go`: version,
var-int input count, inputs, var-int output count, outputs, locktime,
hex-encoded. -/
def Serialize (tx : Transaction) : Except SerError Str :=
  match serializeInputs (uint32LE tx.Version ++ writeVarInt tx.Inputs.length)
      tx.Inputs with
  | .error e => .error e
  | .ok buf =>
    .ok (hexEncode (serializeOutputs (buf ++ writeVarInt tx.Outputs.length) tx.Outputs
      ++ uint32LE tx.Locktime))

/-- Embeds `Transaction.Hash` from `pkg/bitcoin/transaction.go`: the empty
string when serialization fails, else the lowercase hex of the
byte-reversed double SHA-256 of the wire bytes (which the Go code
re-decodes from the hex string, ignoring the impossible decode error). -/
def Hash (tx : Transaction) : Str :=
  match Serialize tx with
  | .error _ => []
  | .ok serialized =>
    let data := (hexDecode serialized).getD []
    hexEncode (doubleSHA256 data).reverse

/-- Embeds `UTXO` from `pkg/bitcoin`. -/
structure UTXO where
  TxID : Str
  Vout : Nat
  Amount : Nat
  ScriptPubKey : Str
  Confirmations : Nat
deriving DecidableEq

/-- Embeds `CoinSelectionAlgorithm` (a Go string type). -/
abbrev CoinSelectionAlgorithm := String

def AlgorithmFIFO : CoinSelectionAlgorithm := "fifo"

def AlgorithmLargestFirst : CoinSelectionAlgorithm := "largest-first"

/-- The accumulation loop of `selectFIFO`: append the UTXO, add its
amount in wrapping `uint64` arithmetic, and stop once the running total
reaches the target. -/
def selectLoop (targetAmount : Nat) : List UTXO → List UTXO → Nat → List UTXO × Nat
  | [], selected, total => (selected, total)
  | u :: rest, selected, total =>
    let total' := (total + u.Amount) % W64
    let selected' := selected ++ [u]
    if targetAmount ≤ total' then (selected', total')
    else selectLoop targetAmount rest selected' total'

/-- Embeds `selectFIFO` from `pkg/bitcoin`. -/
def selectFIFO (utxos : List UTXO) (targetAmount : Nat) : List UTXO × Nat :=
  selectLoop targetAmount utxos [] 0

/-- Insertion into a list sorted by strictly descending amount: the
embedding of `sort.Slice` with the `Amount >` comparator used by
`selectLargestFirst` (only the key order matters; Go's sort is
unstable). -/
def insertDesc (u : UTXO) : List UTXO → List UTXO
  | [] => [u]
  | v :: rest => if v.Amount < u.Amount then u :: v :: rest else v :: insertDesc u rest

/-- Descending-by-amount sort of a copy of the input slice. -/
def sortDesc (utxos : List UTXO) : List UTXO :=
  utxos.foldr insertDesc []

/-- Embeds `selectLargestFirst` from `pkg/bitcoin`: sort a copy descending by
amount, then apply the FIFO accumulation rule. -/
def selectLargestFirst (utxos : List UTXO) (targetAmount : Nat) : List UTXO × Nat :=
  selectFIFO (sortDesc utxos) targetAmount

/-- Errors of `SelectUTXOs` (`fmt.Errorf` sites; `insufficientFunds`
carries the `have`/`need` values of the formatted message). -/
inductive SelError
  | noUTXOs
  | zeroTarget
  | unknownAlgorithm
  | insufficientFunds (avail need : Nat)
deriving DecidableEq

/-- Embeds `SelectUTXOs` from `pkg/bitcoin`: guards for an empty set, a zero
target and an unknown algorithm, then the selected subset with its
accumulated total, or `insufficientFunds` when the total stays below the
target. -/
def SelectUTXOs (utxos : List UTXO) (targetAmount : Nat)
    (algorithm : CoinSelectionAlgorithm) : Except SelError (List UTXO × Nat) :=
  if utxos = [] then .error .noUTXOs
  else if targetAmount = 0 then .error .zeroTarget
  else
    match (if algorithm = AlgorithmFIFO then
             some (selectFIFO utxos targetAmount)
           else if algorithm = AlgorithmLargestFirst then
             some (selectLargestFirst utxos targetAmount)
           else none) with
    | none => .error .unknownAlgorithm
    | some (selected, total) =>
      if total < targetAmount then .error (.insufficientFunds total targetAmount)
      else .ok (selected, total)

/-- Mathematical (non-wrapping) sum of the amounts of a UTXO list — the
specification-side measure used to state the coin-selection claims. -/
def sumAmounts (utxos : List UTXO) : Nat :=
  (utxos.map UTXO.Amount).sum

/-- Embeds `wire.TxIn` of the external btcd package (fields of the message
struct; witness items as byte lists). -/
structure WTxIn where
  previousOutPointHash : List Nat
  previousOutPointIndex : Nat
  signatureScript : List Nat
  witnessData : List (List Nat)
  sequence : Nat
deriving DecidableEq

/-- Embeds `wire.TxOut` of the external btcd package. -/
structure WTxOut where
  value : Int
  pkScript : List Nat
deriving DecidableEq

/-- Embeds `wire.MsgTx` of the external btcd package. -/
structure MsgTx where
  version : Int
  txIn : List WTxIn
  txOut : List WTxOut
  lockTime : Nat
deriving DecidableEq

/-- The in-place update `tx.TxIn[idx].SignatureScript = scriptSig`
embedded as a positional list update. -/
def setSigScript : List WTxIn → Nat → List Nat → List WTxIn
  | [], _, _ => []
  | t :: rest, 0, s => { t with signatureScript := s } :: rest
  | t :: rest, n + 1, s => t :: setSigScript rest n s

/-- Embeds `AttachScriptSig` from `internal/adapters/bitcoin/core/sign.go`. -/
def AttachScriptSig (tx : MsgTx) (idx : Nat) (scriptSig : List Nat) : MsgTx :=
  { tx with txIn := setSigScript tx.txIn idx scriptSig }

/-- Sample wallet used by witnesses: built from a 12-word phrase
accepted by the mnemonic validity model. -/
def sampleMnemonic : Str :=
  "w w w w w w w w w w w w".data

/-- The wallet `NewHDWallet sampleMnemonic ""` constructs. -/
def sampleWallet : HDWallet :=
  { masterKey := newMasterKey (newSeedModel sampleMnemonic []), mnemonic := sampleMnemonic }

/-- The account `DeriveAccount sampleWallet 0 0 P2PKH` constructs. -/
def sampleAccount : HDAccount :=
  { key := NewChildKey (NewChildKey (NewChildKey sampleWallet.masterKey 2147483692)
      2147483648) 2147483648
    path := ['m', '/', '4', '4', apo, '/', '0', apo, '/', '0', apo]
    coinType := 0
    account := 0
    addressType := AddressTypeP2PKH }

/-- Wrapping `uint64` sum of amounts starting from `tot` — exactly the
accumulation the selection loop performs. -/
def wrapSumFrom (tot : Nat) (l : List UTXO) : Nat :=
  l.foldl (fun a u => (a + u.Amount) % W64) tot

/-- Wrapping `uint64` sum of amounts (specification-side measure). -/
def wrapSum (l : List UTXO) : Nat :=
  wrapSumFrom 0 l

/-- Specification-side counter: how many leading amounts the FIFO rule
consumes to reach the target, in exact arithmetic. -/
def fifoCount : List Nat → Nat → Nat
  | [], _ => 0
  | a :: rest, t => if t ≤ a then 1 else 1 + fifoCount rest (t - a)

/-- Sum of the first `k` elements (specification-side measure). -/
def prefixSum (l : List Nat) (k : Nat) : Nat :=
  (l.take k).sum

/-- Sample UTXOs used in witnesses and counterexamples. -/
def mkUTXO (amount : Nat) : UTXO :=
  { TxID := [], Vout := 0, Amount := amount, ScriptPubKey := [], Confirmations := 0 }

/-- An address type outside the three known constants, used by the
claim-C10 witness. -/
def sampleUnknownType : AddressType := "FOO"

theorem digitsFuel_eq_digits (b : Nat) (hb : 2 ≤ b) :
    ∀ fuel n, n ≤ fuel → digitsFuel b fuel n = Nat.digits b n := by
  intro fuel
  induction fuel with
  | zero =>
    intro n hn
    have : n = 0 := by omega
    subst this
    simp [digitsFuel]
  | succ f ih =>
    intro n hn
    match n with
    | 0 => simp [digitsFuel]
    | m + 1 =>
      rw [show digitsFuel b (f + 1) (m + 1) = (m + 1) % b :: digitsFuel b f ((m + 1) / b) from rfl]
      rw [Nat.digits_def' (by omega : 1 < b) (Nat.succ_pos m)]
      congr 1
      apply ih
      have hdiv : (m + 1) / b < m + 1 := Nat.div_lt_self (by omega) (by omega)
      omega

theorem foldl_mul_add (base : Nat) :
    ∀ (L : List Nat) (a : Nat),
      L.foldl (fun x v => x * base + v) a = a * base ^ L.length + Nat.ofDigits base L.reverse := by
  intro L
  induction L with
  | nil => intro a; simp [Nat.ofDigits]
  | cons d L ih =>
    intro a
    simp only [List.foldl_cons, List.reverse_cons, List.length_cons]
    rw [ih (a * base + d), Nat.ofDigits_append]
    simp [pow_succ]
    ring

theorem beBytesToNat_eq (bs : List Nat) :
    beBytesToNat bs = Nat.ofDigits 256 bs.reverse := by
  simpa [beBytesToNat] using foldl_mul_add 256 bs 0

theorem replicate_append_drop (bs : List Nat) :
    List.replicate (leadingZeroCount bs) 0 ++ bs.drop (leadingZeroCount bs) = bs := by
  induction bs with
  | nil => rfl
  | cons b rest ih =>
    by_cases hb : b = 0
    · subst hb
      simp only [leadingZeroCount, if_pos rfl, List.replicate_succ, List.cons_append,
        List.drop_succ_cons]
      exact congrArg (0 :: ·) ih
    · simp [leadingZeroCount, hb]

theorem headD_drop_ne_zero (bs : List Nat) :
    (bs.drop (leadingZeroCount bs)).headD 1 ≠ 0 := by
  induction bs with
  | nil => simp
  | cons b rest ih =>
    by_cases hb : b = 0
    · subst hb
      simpa [leadingZeroCount] using ih
    · simp [leadingZeroCount, hb]

theorem b58CharVal_getD (d : Nat) (hd : d < 58) :
    b58CharVal (b58Alphabet.getD d '1') = some d := by
  revert hd
  revert d
  decide

theorem b58Char_ne_one (d : Nat) (hd : d < 58) (hdz : d ≠ 0) :
    b58Alphabet.getD d '1' ≠ '1' := by
  revert hdz
  revert hd
  revert d
  decide

theorem b58ParseVals_append {s t : Str} {a b : List Nat}
    (hs : b58ParseVals s = some a) (ht : b58ParseVals t = some b) :
    b58ParseVals (s ++ t) = some (a ++ b) := by
  induction s generalizing a with
  | nil =>
    simp only [b58ParseVals] at hs
    cases hs
    simpa using ht
  | cons c rest ih =>
    simp only [b58ParseVals] at hs ⊢
    cases hv : b58CharVal c with
    | none => rw [hv] at hs; simp at hs
    | some v =>
      rw [hv] at hs
      cases hr : b58ParseVals rest with
      | none => rw [hr] at hs; simp at hs
      | some vs =>
        rw [hr] at hs
        simp only [Option.some.injEq] at hs
        subst hs
        have h2 : b58ParseVals (rest.append t) = some (vs ++ b) := ih hr
        rw [h2]
        rfl


theorem b58ParseVals_replicate_one (k : Nat) :
    b58ParseVals (List.replicate k '1') = some (List.replicate k 0) := by
  induction k with
  | zero => rfl
  | succ n ih =>
    simp only [List.replicate_succ, b58ParseVals, ih]
    rfl

theorem b58ParseVals_map_getD (ds : List Nat) (h : ∀ d ∈ ds, d < 58) :
    b58ParseVals (ds.map (fun d => b58Alphabet.getD d '1')) = some ds := by
  induction ds with
  | nil => rfl
  | cons d rest ih =>
    simp only [List.map_cons, b58ParseVals]
    rw [b58CharVal_getD d (h d (by simp)), ih (fun x hx => h x (by simp [hx]))]

theorem leadingOneCount_replicate_append (k : Nat) (t : Str)
    (ht : t.headD 'x' ≠ '1') : leadingOneCount (List.replicate k '1' ++ t) = k := by
  induction k with
  | zero =>
    cases t with
    | nil => rfl
    | cons c rest =>
      simp only [List.headD_cons] at ht
      simp [leadingOneCount, ht]
  | succ n ih =>
    simp [List.replicate_succ, leadingOneCount, List.append_eq, ih]

theorem ofDigits_replicate_zero (b k : Nat) :
    Nat.ofDigits b (List.replicate k 0) = 0 := by
  induction k with
  | zero => simp [Nat.ofDigits]
  | succ n ih => simp [List.replicate_succ, Nat.ofDigits_cons, ih]

theorem b58Decode_b58Encode (bs : List Nat) (h : ∀ x ∈ bs, x < 256) :
    b58Decode (b58Encode bs) = bs := by
  set k := leadingZeroCount bs with hk
  set rest := bs.drop k with hrestdef
  have hsplit : List.replicate k 0 ++ rest = bs := replicate_append_drop bs
  set N := beBytesToNat bs with hNdef
  have hN : N = Nat.ofDigits 256 rest.reverse := by
    rw [hNdef, beBytesToNat_eq, ← hsplit, List.reverse_append, List.reverse_replicate,
      Nat.ofDigits_append, ofDigits_replicate_zero]
    simp
  have hdig58 : digitsFuel 58 N N = Nat.digits 58 N :=
    digitsFuel_eq_digits 58 (by norm_num) N N le_rfl
  have hrest256 : ∀ x ∈ rest.reverse, x < 256 := by
    intro x hx
    exact h x (List.mem_of_mem_drop (List.mem_reverse.mp hx))
  have hlast : ∀ (hne : rest.reverse ≠ []), rest.reverse.getLast hne ≠ 0 := by
    intro hne hzero
    have h1 : rest.reverse.getLast? = some 0 := by
      rw [List.getLast?_eq_getLast _ hne, hzero]
    rw [List.getLast?_reverse] at h1
    have h2 := headD_drop_ne_zero bs
    rw [← hk, ← hrestdef] at h2
    apply h2
    rw [List.headD_eq_head?, h1]
    rfl
  have hdig256 : Nat.digits 256 N = rest.reverse := by
    rw [hN]
    exact Nat.digits_ofDigits 256 (by norm_num) rest.reverse hrest256 hlast
  have hfuel256 : digitsFuel 256 N N = rest.reverse := by
    rw [digitsFuel_eq_digits 256 (by norm_num) N N le_rfl, hdig256]
  have hdlt : ∀ d ∈ Nat.digits 58 N, d < 58 :=
    fun d hd => Nat.digits_lt_base (by norm_num) hd
  have henc : b58Encode bs =
      List.replicate k '1' ++
        ((Nat.digits 58 N).reverse.map (fun d => b58Alphabet.getD d '1')) := by
    rw [b58Encode, ← hk, ← hNdef, hdig58, List.map_reverse]
  have hparse : b58ParseVals (b58Encode bs) =
      some (List.replicate k 0 ++ (Nat.digits 58 N).reverse) := by
    rw [henc]
    exact b58ParseVals_append (b58ParseVals_replicate_one k)
      (b58ParseVals_map_getD _ (fun d hd => hdlt d (List.mem_reverse.mp hd)))
  have hfold : (List.replicate k 0 ++ (Nat.digits 58 N).reverse).foldl
      (fun a v => a * 58 + v) 0 = N := by
    rw [foldl_mul_add, List.reverse_append, List.reverse_reverse, List.reverse_replicate,
      Nat.ofDigits_append, Nat.ofDigits_digits, ofDigits_replicate_zero]
    simp
  have hloc : leadingOneCount (b58Encode bs) = k := by
    rw [henc]
    apply leadingOneCount_replicate_append
    by_cases hN0 : N = 0
    · rw [hN0]
      simp only [Nat.digits_zero, List.reverse_nil, List.map_nil, List.headD_nil]
      decide
    · have hne : Nat.digits 58 N ≠ [] := Nat.digits_ne_nil_iff_ne_zero.mpr hN0
      have hlast58 := Nat.getLast_digit_ne_zero 58 hN0
      obtain ⟨e, es, hE⟩ : ∃ e es, (Nat.digits 58 N).reverse = e :: es := by
        cases hrev : (Nat.digits 58 N).reverse with
        | nil =>
          exfalso
          apply hne
          have := congrArg List.reverse hrev
          simpa using this
        | cons e es => exact ⟨e, es, rfl⟩
      have he : some e = (Nat.digits 58 N).getLast? := by
        have h3 := List.head?_reverse (Nat.digits 58 N)
        rw [hE] at h3
        simpa using h3
      have he2 : e = (Nat.digits 58 N).getLast hne := by
        rw [List.getLast?_eq_getLast _ hne] at he
        exact Option.some.inj he
      have he58 : e < 58 := hdlt e (he2 ▸ List.getLast_mem hne)
      have hez : e ≠ 0 := he2 ▸ hlast58
      rw [hE]
      simp only [List.map_cons, List.headD_cons]
      exact b58Char_ne_one e he58 hez
  simp only [b58Decode, hparse, hfold, hloc, hfuel256, List.reverse_reverse]
  exact hsplit

theorem sha256Model_length (bs : List Nat) : (sha256Model bs).length = 32 := by
  simp [sha256Model]

theorem sha256Model_lt (bs : List Nat) : ∀ x ∈ sha256Model bs, x < 256 := by
  intro x hx
  simp only [sha256Model, List.mem_map] at hx
  obtain ⟨i, _, hi⟩ := hx
  subst hi
  have haux : ∀ (l : List Nat) (a : Nat), a < 256 →
      l.foldl (fun a b => (a * 131 + b + i * 17) % 256) a < 256 := by
    intro l
    induction l with
    | nil => intro a ha; exact ha
    | cons b rest ih =>
      intro a ha
      exact ih _ (Nat.mod_lt _ (by norm_num))
  exact haux bs _ (Nat.mod_lt _ (by norm_num))

theorem base58Check_round_trip (version : Nat) (payload : List Nat)
    (hv : version < 256) (hp : ∀ b ∈ payload, b < 256) :
    DecodeBase58Check (EncodeBase58Check version payload) = .ok (version, payload) := by
  have hcs_len : ((doubleSHA256 (version :: payload)).take 4).length = 4 := by
    rw [List.length_take, doubleSHA256, sha256Model_length]
    omega
  have hall : ∀ x ∈ (version :: payload) ++ (doubleSHA256 (version :: payload)).take 4,
      x < 256 := by
    intro x hx
    rcases List.mem_append.mp hx with hx | hx
    · rcases List.mem_cons.mp hx with hx | hx
      · exact hx ▸ hv
      · exact hp x hx
    · exact sha256Model_lt _ x (List.mem_of_mem_take hx)
  have hdec := b58Decode_b58Encode _ hall
  have hlen : ((version :: payload) ++ (doubleSHA256 (version :: payload)).take 4).length
      = payload.length + 5 := by
    rw [List.length_append, List.length_cons, hcs_len]
  show DecodeBase58Check
      (b58Encode ((version :: payload) ++ (doubleSHA256 (version :: payload)).take 4))
      = Except.ok (version, payload)
  simp only [DecodeBase58Check, hdec, hlen]
  rw [if_neg (by omega)]
  have h4 : payload.length + 5 - 4 = payload.length + 1 := by omega
  have h5 : payload.length + 5 - 5 = payload.length := by omega
  rw [h4, h5]
  have hdrop : ((version :: payload) ++ (doubleSHA256 (version :: payload)).take 4).drop
      (payload.length + 1) = (doubleSHA256 (version :: payload)).take 4 := by
    have h6 := List.drop_left (version :: payload)
      ((doubleSHA256 (version :: payload)).take 4)
    rw [List.length_cons] at h6
    exact h6
  have htake : ((version :: payload) ++ (doubleSHA256 (version :: payload)).take 4).take
      (payload.length + 1) = version :: payload := by
    have h7 := List.take_left (version :: payload)
      ((doubleSHA256 (version :: payload)).take 4)
    rw [List.length_cons] at h7
    exact h7
  rw [hdrop, htake, if_pos rfl]
  simp [List.cons_append, List.take_left]

/-- Claim C1 (claim refutation at the failing input): the claim states
that a hardened segment whose decimal index is at least 2^31 makes
`DerivePath` fail with an `InvalidPath` error and derive no key. In the
code, `ParseUint(_, 10, 32)` accepts any index up to 2^32−1, and the
hardened offset is added in wrapping `uint32` arithmetic, so for every
wallet, `m/2147483648'` returns no error at all: it silently derives
the same key as the non-hardened path `m/0` (child index
(2^31 + 2^31) mod 2^32 = 0). -/
theorem derivePath_hardened_overflow_wraps (w : HDWallet) :
    DerivePath w ['m', '/', '2', '1', '4', '7', '4', '8', '3', '6', '4', '8', apo]
      = DerivePath w ['m', '/', '0']
    ∧ DerivePath w ['m', '/', '2', '1', '4', '7', '4', '8', '3', '6', '4', '8', apo]
      = .ok (NewChildKey w.masterKey 0) := by
  exact ⟨rfl, rfl⟩

/-- Claim C5 (claim refutation at the failing input): the claim states a
segment suffixed `h` is treated by `DerivePath` like one suffixed `'`.
In the code, `DerivePath` strips only `'` before `ParseUint`, so `m/0h`
fails with the invalid-index error — even though `ValidatePath`
explicitly accepts `h` as a hardened marker — while `m/0'` derives the
hardened child 2^31. -/
theorem derivePath_h_suffix_rejected (w : HDWallet) :
    DerivePath w ['m', '/', '0', 'h'] = .error (.invalidIndex 0)
    ∧ ValidatePath ['m', '/', '0', 'h'] = .ok ()
    ∧ DerivePath w ['m', '/', '0', apo] = .ok (NewChildKey w.masterKey FirstHardenedChild) := by
  exact ⟨rfl, rfl, rfl⟩

/-- Claim C10: for every address type outside the three known constants,
`Purpose` silently returns 44, and `DeriveAccount` for that type equals
the P2PKH account derivation (same key, same `m/44'/coinType'/account'`
path) with only the recorded `addressType` field replaced. -/
theorem deriveAccount_unknown_type_defaults_to_p2pkh (w : HDWallet)
    (coinType account : Nat) (t : AddressType) (h1 : t ≠ AddressTypeP2PKH)
    (h2 : t ≠ AddressTypeP2SH) (h3 : t ≠ AddressTypeP2WPKH) :
    Purpose t = 44
    ∧ DeriveAccount w coinType account t
      = (DeriveAccount w coinType account AddressTypeP2PKH).map
          (fun acc => { acc with addressType := t }) := by
  have hp : Purpose t = 44 := by
    simp [Purpose, h1, h2, h3]
  refine ⟨hp, ?_⟩
  have hpk : Purpose AddressTypeP2PKH = 44 := rfl
  simp only [DeriveAccount, hp, hpk]
  cases hD : DerivePath w (['m', '/'] ++ natToChars 44 ++ [apo, '/'] ++ natToChars coinType
      ++ [apo, '/'] ++ natToChars account ++ [apo]) with
  | error e => simp [Except.map]
  | ok key => simp [Except.map]

/-- Witness for **C10** at the unknown address type `sampleUnknownType`. -/
theorem deriveAccount_unknown_type_defaults_to_p2pkh_witness :
    (sampleUnknownType ≠ AddressTypeP2PKH ∧ sampleUnknownType ≠ AddressTypeP2SH ∧ sampleUnknownType ≠ AddressTypeP2WPKH)
    ∧ (Purpose sampleUnknownType = 44
       ∧ DeriveAccount sampleWallet 0 0 sampleUnknownType
         = (DeriveAccount sampleWallet 0 0 AddressTypeP2PKH).map
             (fun acc => { acc with addressType := sampleUnknownType })) :=
  ⟨⟨by decide, by decide, by decide⟩,
   deriveAccount_unknown_type_defaults_to_p2pkh sampleWallet 0 0 sampleUnknownType
     (by decide) (by decide) (by decide)⟩

/-- Claim C4: two fresh `HDWallet` values built from the same mnemonic and
passphrase, taken through the same account derivation, yield
byte-identical private keys, public keys and mainnet-P2PKH address
characters at every (change, index), and agree on `DerivePath` for
every path. The pipeline threads no mutable state and consults no
randomness, so both runs compute the same function of the inputs. -/
theorem hdwallet_determinism (m p : Str) (coinType account : Nat) (t : AddressType)
    (change index : Nat) (w1 w2 : HDWallet) (acc1 acc2 : HDAccount)
    (h1 : NewHDWallet m p = .ok w1) (h2 : NewHDWallet m p = .ok w2)
    (ha1 : DeriveAccount w1 coinType account t = .ok acc1)
    (ha2 : DeriveAccount w2 coinType account t = .ok acc2) :
    (DeriveAddress acc1 change index).privateKey
      = (DeriveAddress acc2 change index).privateKey
    ∧ (DeriveAddress acc1 change index).publicKey
      = (DeriveAddress acc2 change index).publicKey
    ∧ pubKeyToP2PKHMainnet (DeriveAddress acc1 change index).publicKey
      = pubKeyToP2PKHMainnet (DeriveAddress acc2 change index).publicKey
    ∧ ∀ path, DerivePath w1 path = DerivePath w2 path := by
  have hw : w1 = w2 := by
    have h12 := h1.symm.trans h2
    exact Except.ok.inj h12
  subst hw
  have hacc : acc1 = acc2 := by
    have ha12 := ha1.symm.trans ha2
    exact Except.ok.inj ha12
  subst hacc
  exact ⟨rfl, rfl, rfl, fun _ => rfl⟩

/-- Witness for **C4** on the sample wallet. -/
theorem hdwallet_determinism_witness :
    NewHDWallet sampleMnemonic [] = .ok sampleWallet
    ∧ DeriveAccount sampleWallet 0 0 AddressTypeP2PKH = .ok sampleAccount
    ∧ ((DeriveAddress sampleAccount 1 2).privateKey
        = (DeriveAddress sampleAccount 1 2).privateKey
      ∧ (DeriveAddress sampleAccount 1 2).publicKey
        = (DeriveAddress sampleAccount 1 2).publicKey
      ∧ pubKeyToP2PKHMainnet (DeriveAddress sampleAccount 1 2).publicKey
        = pubKeyToP2PKHMainnet (DeriveAddress sampleAccount 1 2).publicKey
      ∧ ∀ path, DerivePath sampleWallet path = DerivePath sampleWallet path) :=
  ⟨rfl, rfl,
   hdwallet_determinism sampleMnemonic [] 0 0 AddressTypeP2PKH 1 2
     sampleWallet sampleWallet sampleAccount sampleAccount rfl rfl rfl rfl⟩

theorem setSigScript_length (s : List Nat) :
    ∀ (l : List WTxIn) (idx : Nat), (setSigScript l idx s).length = l.length := by
  intro l
  induction l with
  | nil => intro idx; rfl
  | cons t rest ih =>
    intro idx
    cases idx with
    | zero => rfl
    | succ n => simp [setSigScript, ih n]

theorem setSigScript_getElem_ne (s : List Nat) :
    ∀ (l : List WTxIn) (idx j : Nat), j ≠ idx →
      (setSigScript l idx s)[j]? = l[j]? := by
  intro l
  induction l with
  | nil => intro idx j _; rfl
  | cons t rest ih =>
    intro idx j hne
    cases idx with
    | zero =>
      cases j with
      | zero => exact absurd rfl hne
      | succ m => simp [setSigScript]
    | succ n =>
      cases j with
      | zero => simp [setSigScript]
      | succ m =>
        simp only [setSigScript, List.getElem?_cons_succ]
        exact ih n m (fun h => hne (by rw [h]))

theorem setSigScript_getElem_eq (s : List Nat) :
    ∀ (l : List WTxIn) (idx : Nat), idx < l.length →
      (setSigScript l idx s)[idx]?
        = (l[idx]?).map (fun t => { t with signatureScript := s }) := by
  intro l
  induction l with
  | nil => intro idx h; simp at h
  | cons t rest ih =>
    intro idx h
    cases idx with
    | zero => simp [setSigScript]
    | succ n =>
      simp only [setSigScript, List.getElem?_cons_succ]
      exact ih n (by simpa using h)

/-- Claim C9: `AttachScriptSig` replaces only the signature script of the
indexed input: the version, locktime and outputs are unchanged, every
other input is unchanged, and the other four fields of the indexed
input are unchanged while its signature script becomes the given
bytes. -/
theorem attachScriptSig_frame (tx : MsgTx) (idx : Nat) (scriptSig : List Nat)
    (h : idx < tx.txIn.length) :
    (AttachScriptSig tx idx scriptSig).version = tx.version
    ∧ (AttachScriptSig tx idx scriptSig).lockTime = tx.lockTime
    ∧ (AttachScriptSig tx idx scriptSig).txOut = tx.txOut
    ∧ (AttachScriptSig tx idx scriptSig).txIn.length = tx.txIn.length
    ∧ (∀ j, j ≠ idx → (AttachScriptSig tx idx scriptSig).txIn[j]? = tx.txIn[j]?)
    ∧ (AttachScriptSig tx idx scriptSig).txIn[idx]?.map WTxIn.signatureScript
        = some scriptSig
    ∧ (AttachScriptSig tx idx scriptSig).txIn[idx]?.map WTxIn.previousOutPointHash
        = tx.txIn[idx]?.map WTxIn.previousOutPointHash
    ∧ (AttachScriptSig tx idx scriptSig).txIn[idx]?.map WTxIn.previousOutPointIndex
        = tx.txIn[idx]?.map WTxIn.previousOutPointIndex
    ∧ (AttachScriptSig tx idx scriptSig).txIn[idx]?.map WTxIn.witnessData
        = tx.txIn[idx]?.map WTxIn.witnessData
    ∧ (AttachScriptSig tx idx scriptSig).txIn[idx]?.map WTxIn.sequence
        = tx.txIn[idx]?.map WTxIn.sequence := by
  have hget := setSigScript_getElem_eq scriptSig tx.txIn idx h
  have hsome : ∃ t, tx.txIn[idx]? = some t := by
    rw [List.getElem?_eq_getElem h]
    exact ⟨_, rfl⟩
  obtain ⟨t, ht⟩ := hsome
  refine ⟨rfl, rfl, rfl, setSigScript_length scriptSig tx.txIn idx,
    fun j hj => setSigScript_getElem_ne scriptSig tx.txIn idx j hj, ?_, ?_, ?_, ?_, ?_⟩
  all_goals
    show (setSigScript tx.txIn idx scriptSig)[idx]?.map _ = _
  all_goals rw [hget, ht]
  all_goals rfl

/-- Witness for **C9** on a two-input transaction at index 1. -/
theorem attachScriptSig_frame_witness :
    (1 : Nat) < 2
    ∧ (AttachScriptSig
        { version := 2
          txIn := [{ previousOutPointHash := [7], previousOutPointIndex := 0,
                     signatureScript := [1], witnessData := [], sequence := 5 },
                   { previousOutPointHash := [8], previousOutPointIndex := 1,
                     signatureScript := [2], witnessData := [[3]], sequence := 6 }]
          txOut := [{ value := 9, pkScript := [4] }]
          lockTime := 0 } 1 [9, 9]).txIn[1]?.map WTxIn.signatureScript = some [9, 9] := by
  refine ⟨by decide, ?_⟩
  have hr := attachScriptSig_frame
    { version := 2
      txIn := [{ previousOutPointHash := [7], previousOutPointIndex := 0,
                 signatureScript := [1], witnessData := [], sequence := 5 },
               { previousOutPointHash := [8], previousOutPointIndex := 1,
                 signatureScript := [2], witnessData := [[3]], sequence := 6 }]
      txOut := [{ value := 9, pkScript := [4] }]
      lockTime := 0 } 1 [9, 9] (by decide)
  exact hr.2.2.2.2.2.1

theorem serializeInputs_ok (l : List TxInput)
    (h : ∀ inp ∈ l, (hexDecode inp.PrevTxID).isSome) :
    ∀ buf, serializeInputs buf l
      = .ok (buf ++ (l.map (fun inp =>
          ((hexDecode inp.PrevTxID).getD []).reverse ++ uint32LE inp.PrevVout
            ++ writeVarInt inp.ScriptSig.length ++ inp.ScriptSig
            ++ uint32LE inp.Sequence)).flatten) := by
  induction l with
  | nil => intro buf; simp [serializeInputs]
  | cons inp rest ih =>
    intro buf
    have hinp := h inp (by simp)
    obtain ⟨txid, htxid⟩ := Option.isSome_iff_exists.mp hinp
    have hrest : ∀ i ∈ rest, (hexDecode i.PrevTxID).isSome :=
      fun i hi => h i (by simp [hi])
    simp only [serializeInputs, htxid, List.map_cons, List.flatten_cons]
    rw [ih hrest]
    simp [htxid, List.append_assoc]

theorem serializeOutputs_eq (l : List TxOutput) :
    ∀ buf, serializeOutputs buf l
      = buf ++ (l.map (fun o =>
          uint64LE o.Amount ++ writeVarInt o.ScriptPubKey.length
            ++ o.ScriptPubKey)).flatten := by
  induction l with
  | nil => intro buf; simp [serializeOutputs]
  | cons o rest ih =>
    intro buf
    simp only [serializeOutputs, List.map_cons, List.flatten_cons]
    rw [ih]
    simp [List.append_assoc]

/-- Claim C2: whenever every input's previous-txid field is valid hex,
`Serialize` succeeds and returns exactly the lowercase hex of: 4-byte LE
version; var-int input count; per input the reversed txid bytes, 4-byte
LE vout, var-int script length, script, 4-byte LE sequence; var-int
output count; per output 8-byte LE amount, var-int script length,
script; and 4-byte LE locktime — with `writeVarInt` the standard
prefix scheme. -/
theorem serialize_wire_layout (tx : Transaction)
    (h : ∀ inp ∈ tx.Inputs, (hexDecode inp.PrevTxID).isSome) :
    Serialize tx = .ok (hexEncode (
      uint32LE tx.Version ++ writeVarInt tx.Inputs.length
      ++ (tx.Inputs.map (fun inp =>
            ((hexDecode inp.PrevTxID).getD []).reverse ++ uint32LE inp.PrevVout
              ++ writeVarInt inp.ScriptSig.length ++ inp.ScriptSig
              ++ uint32LE inp.Sequence)).flatten
      ++ writeVarInt tx.Outputs.length
      ++ (tx.Outputs.map (fun o =>
            uint64LE o.Amount ++ writeVarInt o.ScriptPubKey.length
              ++ o.ScriptPubKey)).flatten
      ++ uint32LE tx.Locktime)) := by
  simp only [Serialize, serializeInputs_ok tx.Inputs h, serializeOutputs_eq,
    List.append_assoc]

/-- Witness for **C2** on a one-input, one-output transaction with the
two-byte txid `00ff`. -/
theorem serialize_wire_layout_witness :
    (∀ inp ∈ [({ PrevTxID := ['0', '0', 'f', 'f'], PrevVout := 1,
                 ScriptSig := [171], Sequence := 4294967295 } : TxInput)],
       (hexDecode inp.PrevTxID).isSome)
    ∧ Serialize
        { Version := 2
          Inputs := [{ PrevTxID := ['0', '0', 'f', 'f'], PrevVout := 1,
                       ScriptSig := [171], Sequence := 4294967295 }]
          Outputs := [{ Amount := 600, ScriptPubKey := [81] }]
          Locktime := 0 }
      = .ok (hexEncode (
          uint32LE 2 ++ writeVarInt 1
          ++ ([255, 0] ++ uint32LE 1 ++ writeVarInt 1 ++ [171] ++ uint32LE 4294967295)
          ++ writeVarInt 1
          ++ (uint64LE 600 ++ writeVarInt 1 ++ [81])
          ++ uint32LE 0)) := by
  constructor
  · decide
  · have hr := serialize_wire_layout
      { Version := 2
        Inputs := [{ PrevTxID := ['0', '0', 'f', 'f'], PrevVout := 1,
                     ScriptSig := [171], Sequence := 4294967295 }]
        Outputs := [{ Amount := 600, ScriptPubKey := [81] }]
        Locktime := 0 }
      (by decide)
    rw [hr]
    rfl

theorem hexDigitVal_hexChar : ∀ d, d < 16 → hexDigitVal (hexChar d) = some d := by
  decide

theorem hexChar_isLowerHex : ∀ d, d < 16 → isLowerHexDigit (hexChar d) = true := by
  decide

theorem hexDecode_hexEncode (bs : List Nat) (h : ∀ b ∈ bs, b < 256) :
    hexDecode (hexEncode bs) = some bs := by
  induction bs with
  | nil => rfl
  | cons b rest ih =>
    have hb : b < 256 := h b (by simp)
    have hrest := ih (fun x hx => h x (by simp [hx]))
    show hexDecode (hexChar (b / 16) :: hexChar (b % 16) :: hexEncode rest) = some (b :: rest)
    simp only [hexDecode, hexDigitVal_hexChar (b / 16) (by omega),
      hexDigitVal_hexChar (b % 16) (by omega), hrest]
    have hsplit : b / 16 * 16 + b % 16 = b := by omega
    rw [hsplit]

theorem hexEncode_length (bs : List Nat) : (hexEncode bs).length = 2 * bs.length := by
  induction bs with
  | nil => rfl
  | cons b rest ih =>
    show (hexChar (b / 16) :: hexChar (b % 16) :: hexEncode rest).length = _
    simp [ih]
    omega

theorem hexEncode_all_hex (bs : List Nat) (h : ∀ b ∈ bs, b < 256) :
    (hexEncode bs).all isLowerHexDigit = true := by
  induction bs with
  | nil => rfl
  | cons b rest ih =>
    have hb : b < 256 := h b (by simp)
    show (hexChar (b / 16) :: hexChar (b % 16) :: hexEncode rest).all isLowerHexDigit = true
    simp only [List.all_cons, Bool.and_eq_true]
    exact ⟨hexChar_isLowerHex _ (by omega), hexChar_isLowerHex _ (by omega),
      ih (fun x hx => h x (by simp [hx]))⟩

theorem doubleSHA256_length (data : List Nat) : (doubleSHA256 data).length = 32 := by
  rw [doubleSHA256, sha256Model_length]

theorem doubleSHA256_lt (data : List Nat) : ∀ x ∈ doubleSHA256 data, x < 256 := by
  rw [doubleSHA256]
  exact sha256Model_lt _

theorem mem_uint16LE_lt (n : Nat) : ∀ x ∈ uint16LE n, x < 256 := by
  intro x hx
  simp [uint16LE] at hx
  rcases hx with h | h <;> omega

theorem mem_uint32LE_lt (n : Nat) : ∀ x ∈ uint32LE n, x < 256 := by
  intro x hx
  simp [uint32LE] at hx
  rcases hx with h | h | h | h <;> omega

theorem mem_uint64LE_lt (n : Nat) : ∀ x ∈ uint64LE n, x < 256 := by
  intro x hx
  simp [uint64LE] at hx
  rcases hx with h | h | h | h | h | h | h | h <;> omega

theorem mem_writeVarInt_lt (n : Nat) : ∀ x ∈ writeVarInt n, x < 256 := by
  intro x hx
  simp only [writeVarInt] at hx
  split_ifs at hx with h1 h2 h3
  · simp at hx
    omega
  · rcases List.mem_cons.mp hx with hx | hx
    · omega
    · exact mem_uint16LE_lt n x hx
  · rcases List.mem_cons.mp hx with hx | hx
    · omega
    · exact mem_uint32LE_lt n x hx
  · rcases List.mem_cons.mp hx with hx | hx
    · omega
    · exact mem_uint64LE_lt n x hx

theorem hexDigitVal_lt {c : Char} {v : Nat} (h : hexDigitVal c = some v) : v < 16 := by
  simp only [hexDigitVal] at h
  split_ifs at h with h1 h2 h3
  · injection h with h; omega
  · injection h with h; omega
  · injection h with h; omega

theorem hexDecode_mem_lt :
    ∀ (s : Str) (bs : List Nat), hexDecode s = some bs → ∀ b ∈ bs, b < 256
  | [], bs, h => by
    simp only [hexDecode, Option.some.injEq] at h
    subst h
    simp
  | [c], bs, h => by
    simp [hexDecode] at h
  | c1 :: c2 :: rest, bs, h => by
    simp only [hexDecode] at h
    cases h1 : hexDigitVal c1 with
    | none => rw [h1] at h; simp at h
    | some hv =>
      cases h2 : hexDigitVal c2 with
      | none => rw [h1, h2] at h; simp at h
      | some lv =>
        cases h3 : hexDecode rest with
        | none => rw [h1, h2, h3] at h; simp at h
        | some tail =>
          rw [h1, h2, h3] at h
          simp only [Option.some.injEq] at h
          subst h
          intro b hb
          rcases List.mem_cons.mp hb with hb | hb
          · have hv16 := hexDigitVal_lt h1
            have lv16 := hexDigitVal_lt h2
            omega
          · exact hexDecode_mem_lt rest tail h3 b hb

theorem serializeInputs_mem_lt :
    ∀ (l : List TxInput) (buf out : List Nat),
      (∀ b ∈ buf, b < 256) → (∀ inp ∈ l, ∀ b ∈ inp.ScriptSig, b < 256) →
      serializeInputs buf l = .ok out → ∀ b ∈ out, b < 256
  | [], buf, out, hbuf, _, h => by
    simp only [serializeInputs, Except.ok.injEq] at h
    subst h
    exact hbuf
  | inp :: rest, buf, out, hbuf, hs, h => by
    simp only [serializeInputs] at h
    cases htx : hexDecode inp.PrevTxID with
    | none => rw [htx] at h; simp at h
    | some txid =>
      rw [htx] at h
      refine serializeInputs_mem_lt rest _ out ?_ (fun i hi => hs i (by simp [hi])) h
      intro b hb
      simp only [List.append_assoc, List.mem_append] at hb
      rcases hb with hb | hb | hb | hb | hb | hb
      · exact hbuf b hb
      · exact hexDecode_mem_lt _ _ htx b (List.mem_reverse.mp hb)
      · exact mem_uint32LE_lt _ b hb
      · exact mem_writeVarInt_lt _ b hb
      · exact hs inp (by simp) b hb
      · exact mem_uint32LE_lt _ b hb

theorem serializeOutputs_mem_lt :
    ∀ (l : List TxOutput) (buf : List Nat),
      (∀ b ∈ buf, b < 256) → (∀ o ∈ l, ∀ b ∈ o.ScriptPubKey, b < 256) →
      ∀ b ∈ serializeOutputs buf l, b < 256
  | [], buf, hbuf, _ => by
    simpa [serializeOutputs] using hbuf
  | o :: rest, buf, hbuf, hs => by
    simp only [serializeOutputs]
    refine serializeOutputs_mem_lt rest _ ?_ (fun i hi => hs i (by simp [hi]))
    intro b hb
    simp only [List.append_assoc, List.mem_append] at hb
    rcases hb with hb | hb | hb | hb
    · exact hbuf b hb
    · exact mem_uint64LE_lt _ b hb
    · exact mem_writeVarInt_lt _ b hb
    · exact hs o (by simp) b hb

/-- Claim C8: when serialization succeeds, `Hash` returns 64 characters of
lowercase hex (`^[0-9a-f]{64}$` — the hex of the byte-reversed 32-byte
double SHA-256 of the wire bytes); when serialization fails (malformed
previous-txid hex), `Hash` returns the empty string rather than
panicking. -/
theorem hash_txid_shape (tx : Transaction)
    (hsig : ∀ inp ∈ tx.Inputs, ∀ b ∈ inp.ScriptSig, b < 256)
    (hout : ∀ o ∈ tx.Outputs, ∀ b ∈ o.ScriptPubKey, b < 256) :
    ((Serialize tx).isOk = true →
      (Hash tx).length = 64 ∧ (Hash tx).all isLowerHexDigit = true)
    ∧ ((Serialize tx).isOk = false → Hash tx = []) := by
  cases hI : serializeInputs (uint32LE tx.Version ++ writeVarInt tx.Inputs.length)
      tx.Inputs with
  | error e =>
    have hser : Serialize tx = .error e := by
      simp [Serialize, hI]
    constructor
    · intro hok
      rw [hser] at hok
      simp [Except.isOk, Except.toBool] at hok
    · intro _
      simp [Hash, hser]
  | ok buf =>
    have hser : Serialize tx
        = .ok (hexEncode (serializeOutputs (buf ++ writeVarInt tx.Outputs.length)
            tx.Outputs ++ uint32LE tx.Locktime)) := by
      simp [Serialize, hI]
    have hbufB : ∀ b ∈ serializeOutputs (buf ++ writeVarInt tx.Outputs.length)
        tx.Outputs ++ uint32LE tx.Locktime, b < 256 := by
      intro b hb
      rcases List.mem_append.mp hb with hb | hb
      · refine serializeOutputs_mem_lt tx.Outputs _ ?_ hout b hb
        intro x hx
        rcases List.mem_append.mp hx with hx | hx
        · refine serializeInputs_mem_lt tx.Inputs _ buf ?_ hsig hI x hx
          intro y hy
          rcases List.mem_append.mp hy with hy | hy
          · exact mem_uint32LE_lt _ y hy
          · exact mem_writeVarInt_lt _ y hy
        · exact mem_writeVarInt_lt _ x hx
      · exact mem_uint32LE_lt _ b hb
    constructor
    · intro _
      have hhash : Hash tx = hexEncode (doubleSHA256 (serializeOutputs
          (buf ++ writeVarInt tx.Outputs.length) tx.Outputs
            ++ uint32LE tx.Locktime)).reverse := by
        simp only [Hash, hser, hexDecode_hexEncode _ hbufB, Option.getD_some]
      rw [hhash]
      constructor
      · rw [hexEncode_length, List.length_reverse, doubleSHA256_length]
      · exact hexEncode_all_hex _
          (fun x hx => doubleSHA256_lt _ x (List.mem_reverse.mp hx))
    · intro hbad
      rw [hser] at hbad
      simp [Except.isOk, Except.toBool] at hbad

/-- Witness for **C8** on the trivial empty transaction. -/
theorem hash_txid_shape_witness :
    (Serialize { Version := 2, Inputs := [], Outputs := [], Locktime := 0 }).isOk = true
    ∧ (Hash { Version := 2, Inputs := [], Outputs := [], Locktime := 0 }).length = 64
    ∧ (Hash { Version := 2, Inputs := [], Outputs := [], Locktime := 0 }).all
        isLowerHexDigit = true :=
  ⟨rfl,
   ((hash_txid_shape { Version := 2, Inputs := [], Outputs := [], Locktime := 0 }
      (by simp) (by simp)).1 rfl).1,
   ((hash_txid_shape { Version := 2, Inputs := [], Outputs := [], Locktime := 0 }
      (by simp) (by simp)).1 rfl).2⟩

theorem selectLoop_shape (T : Nat) :
    ∀ (l sel : List UTXO) (tot : Nat),
      ∃ d, d <+: l ∧ (selectLoop T l sel tot).1 = sel ++ d
        ∧ (selectLoop T l sel tot).2 = wrapSumFrom tot d := by
  intro l
  induction l with
  | nil =>
    intro sel tot
    exact ⟨[], List.prefix_refl _, by simp [selectLoop], by simp [selectLoop, wrapSumFrom]⟩
  | cons u rest ih =>
    intro sel tot
    by_cases hstop : T ≤ (tot + u.Amount) % W64
    · refine ⟨[u], ⟨rest, rfl⟩, ?_, ?_⟩
      · simp [selectLoop, hstop]
      · simp [selectLoop, hstop, wrapSumFrom]
    · obtain ⟨d, hpre, h1, h2⟩ := ih (sel ++ [u]) ((tot + u.Amount) % W64)
      refine ⟨u :: d, ?_, ?_, ?_⟩
      · obtain ⟨t, ht⟩ := hpre
        exact ⟨t, by rw [List.cons_append, ht]⟩
      · simp only [selectLoop, if_neg hstop]
        rw [h1]
        simp
      · simp only [selectLoop, if_neg hstop]
        rw [h2]
        rfl

theorem wrapSumFrom_le (l : List UTXO) :
    ∀ tot, wrapSumFrom tot l ≤ tot + sumAmounts l := by
  induction l with
  | nil => intro tot; simp [wrapSumFrom, sumAmounts]
  | cons u rest ih =>
    intro tot
    have h1 : wrapSumFrom tot (u :: rest) = wrapSumFrom ((tot + u.Amount) % W64) rest := rfl
    have h2 := ih ((tot + u.Amount) % W64)
    have h3 : (tot + u.Amount) % W64 ≤ tot + u.Amount := Nat.mod_le _ _
    have h4 : sumAmounts (u :: rest) = u.Amount + sumAmounts rest := by
      simp [sumAmounts]
    omega

theorem selectLoop_exhaust (T : Nat) (hTW : T < W64) :
    ∀ (l sel : List UTXO) (tot : Nat), tot + sumAmounts l < T →
      selectLoop T l sel tot = (sel ++ l, tot + sumAmounts l) := by
  intro l
  induction l with
  | nil =>
    intro sel tot h
    simp [selectLoop, sumAmounts]
  | cons u rest ih =>
    intro sel tot h
    have hsums : sumAmounts (u :: rest) = u.Amount + sumAmounts rest := by
      simp [sumAmounts]
    have hnw : (tot + u.Amount) % W64 = tot + u.Amount :=
      Nat.mod_eq_of_lt (by omega)
    have hlt : ¬ T ≤ (tot + u.Amount) % W64 := by
      rw [hnw]; omega
    show (if T ≤ (tot + u.Amount) % W64 then (sel ++ [u], (tot + u.Amount) % W64)
          else selectLoop T rest (sel ++ [u]) ((tot + u.Amount) % W64))
        = (sel ++ u :: rest, tot + sumAmounts (u :: rest))
    rw [if_neg hlt, hnw, ih (sel ++ [u]) (tot + u.Amount) (by omega), hsums]
    simp [List.append_assoc, Nat.add_assoc]

theorem insertDesc_perm (u : UTXO) : ∀ l : List UTXO, List.Perm (insertDesc u l) (u :: l) := by
  intro l
  induction l with
  | nil => rfl
  | cons v rest ih =>
    by_cases hv : v.Amount < u.Amount
    · simp [insertDesc, hv]
    · simp only [insertDesc, if_neg hv]
      exact List.Perm.trans (List.Perm.cons v ih) (List.Perm.swap u v rest)

theorem sortDesc_perm (l : List UTXO) : List.Perm (sortDesc l) l := by
  induction l with
  | nil => rfl
  | cons u rest ih =>
    exact List.Perm.trans (insertDesc_perm u (sortDesc rest)) (List.Perm.cons u ih)

theorem insertDesc_sorted (u : UTXO) :
    ∀ l : List UTXO, List.Pairwise (fun a b => b.Amount ≤ a.Amount) l →
      List.Pairwise (fun a b => b.Amount ≤ a.Amount) (insertDesc u l) := by
  intro l
  induction l with
  | nil => intro _; simp [insertDesc]
  | cons v rest ih =>
    intro hs
    rw [List.pairwise_cons] at hs
    obtain ⟨hv, hrest⟩ := hs
    by_cases hlt : v.Amount < u.Amount
    · simp only [insertDesc, if_pos hlt]
      rw [List.pairwise_cons]
      constructor
      · intro b hb
        rcases List.mem_cons.mp hb with hb | hb
        · subst hb; omega
        · have := hv b hb; omega
      · rw [List.pairwise_cons]
        exact ⟨hv, hrest⟩
    · simp only [insertDesc, if_neg hlt]
      rw [List.pairwise_cons]
      constructor
      · intro b hb
        have hmem := (insertDesc_perm u rest).mem_iff.mp hb
        rcases List.mem_cons.mp hmem with hb2 | hb2
        · subst hb2; omega
        · exact hv b hb2
      · exact ih hrest

theorem sortDesc_sorted (l : List UTXO) :
    List.Pairwise (fun a b => b.Amount ≤ a.Amount) (sortDesc l) := by
  induction l with
  | nil => simp [sortDesc]
  | cons u rest ih => exact insertDesc_sorted u (sortDesc rest) ih

theorem sumAmounts_perm {l l' : List UTXO} (h : List.Perm l l') : sumAmounts l = sumAmounts l' := by
  exact List.Perm.sum_eq (List.Perm.map UTXO.Amount h)

/-- Claim C6 (amended): if `SelectUTXOs` succeeds, the returned total is
the target-covering wrapped `uint64` sum of the selected amounts and is
bounded by their exact sum; and for a **nonempty** set whose exact
amount sum is below the (`uint64`) target, selection with either
algorithm fails with `insufficientFunds` carrying the accumulated total
(the full sum) and the target. (On the empty set the code fails with the
`no UTXOs available` error instead — see the counterexample.) -/
theorem selectUTXOs_totals (l : List UTXO) (T : Nat) (alg : CoinSelectionAlgorithm) :
    (∀ sel tot, SelectUTXOs l T alg = .ok (sel, tot) →
      T ≤ tot ∧ tot = wrapSum sel ∧ tot ≤ sumAmounts sel)
    ∧ (l ≠ [] → T < W64 → (alg = AlgorithmFIFO ∨ alg = AlgorithmLargestFirst) →
        sumAmounts l < T →
        SelectUTXOs l T alg = .error (.insufficientFunds (sumAmounts l) T)) := by
  constructor
  · intro sel tot hok
    by_cases hl : l = []
    · simp [SelectUTXOs, hl] at hok
    by_cases hT : T = 0
    · simp [SelectUTXOs, hl, hT] at hok
    simp only [SelectUTXOs, if_neg hl, if_neg hT] at hok
    by_cases halg : alg = AlgorithmFIFO
    · rw [if_pos halg] at hok
      obtain ⟨d, _, h1, h2⟩ := selectLoop_shape T l [] 0
      rw [show selectFIFO l T = (d, wrapSumFrom 0 d) from by
          rw [selectFIFO, Prod.ext_iff]; exact ⟨by simpa using h1, h2⟩] at hok
      by_cases hins : wrapSumFrom 0 d < T
      · simp [hins] at hok
      · simp only [if_neg hins] at hok
        have hpair := Except.ok.inj hok
        have hd : d = sel := congrArg Prod.fst hpair
        have htot : wrapSumFrom 0 d = tot := congrArg Prod.snd hpair
        subst hd
        have hle := wrapSumFrom_le d 0
        refine ⟨by omega, ?_, by omega⟩
        rw [← htot]
        rfl
    · rw [if_neg halg] at hok
      by_cases halg2 : alg = AlgorithmLargestFirst
      · rw [if_pos halg2] at hok
        obtain ⟨d, _, h1, h2⟩ := selectLoop_shape T (sortDesc l) [] 0
        rw [show selectLargestFirst l T = (d, wrapSumFrom 0 d) from by
            rw [selectLargestFirst, selectFIFO, Prod.ext_iff]
            exact ⟨by simpa using h1, h2⟩] at hok
        by_cases hins : wrapSumFrom 0 d < T
        · simp [hins] at hok
        · simp only [if_neg hins] at hok
          have hpair := Except.ok.inj hok
          have hd : d = sel := congrArg Prod.fst hpair
          have htot : wrapSumFrom 0 d = tot := congrArg Prod.snd hpair
          subst hd
          have hle := wrapSumFrom_le d 0
          refine ⟨by omega, ?_, by omega⟩
          rw [← htot]
          rfl
      · rw [if_neg halg2] at hok
        simp at hok
  · intro hl hTW halg hsum
    have hT : T ≠ 0 := by
      intro h
      omega
    have hT0 : 0 < T := by omega
    have hfifo : selectFIFO l T = (l, sumAmounts l) := by
      rw [selectFIFO, selectLoop_exhaust T hTW l [] 0 (by omega)]
      simp
    have hlf : selectLargestFirst l T = (sortDesc l, sumAmounts l) := by
      rw [selectLargestFirst, selectFIFO,
        selectLoop_exhaust T hTW (sortDesc l) [] 0
          (by rw [sumAmounts_perm (sortDesc_perm l)]; omega)]
      rw [sumAmounts_perm (sortDesc_perm l)]
      simp
    rcases halg with halg | halg
    · subst halg
      simp only [SelectUTXOs, if_neg hl, if_neg hT, if_pos rfl, hfifo]
      simp [hsum]
    · subst halg
      have hne : AlgorithmLargestFirst ≠ AlgorithmFIFO := by decide
      simp only [SelectUTXOs, if_neg hl, if_neg hT, if_neg hne, if_pos rfl, hlf]
      simp [hsum]

/-- Counterexample for **C6** as frozen: on the empty UTXO set with
target 5 the full set's sum (0) is below the target, but `SelectUTXOs`
fails with the `no UTXOs available` error, not with
`InsufficientFunds{have 0, need 5}`. -/
theorem selectUTXOs_empty_not_insufficient :
    SelectUTXOs [] 5 AlgorithmFIFO = .error .noUTXOs
    ∧ SelError.noUTXOs ≠ SelError.insufficientFunds 0 5 :=
  ⟨rfl, by decide⟩

/-- Witness for **C6**: a succeeding selection (single 100-amount UTXO,
target 5) and a failing one (single 3-amount UTXO, target 5). -/
theorem selectUTXOs_totals_witness :
    (5 ≤ 100 ∧ (100 : Nat) = wrapSum [mkUTXO 100] ∧ 100 ≤ sumAmounts [mkUTXO 100])
    ∧ SelectUTXOs [mkUTXO 3] 5 AlgorithmFIFO
        = .error (.insufficientFunds (sumAmounts [mkUTXO 3]) 5) :=
  ⟨(selectUTXOs_totals [mkUTXO 100] 5 AlgorithmFIFO).1 [mkUTXO 100] 100 rfl,
   (selectUTXOs_totals [mkUTXO 3] 5 AlgorithmFIFO).2 (by decide) (by decide)
     (Or.inl rfl) (by decide)⟩

theorem prefixSum_nil (k : Nat) : prefixSum [] k = 0 := by
  simp [prefixSum]

theorem prefixSum_zero (l : List Nat) : prefixSum l 0 = 0 := by
  simp [prefixSum]

theorem prefixSum_cons_succ (a : Nat) (l : List Nat) (k : Nat) :
    prefixSum (a :: l) (k + 1) = a + prefixSum l k := by
  simp [prefixSum]

theorem prefixSum_mono (l : List Nat) :
    ∀ k k', k ≤ k' → prefixSum l k ≤ prefixSum l k' := by
  induction l with
  | nil => intro k k' _; simp [prefixSum_nil]
  | cons a rest ih =>
    intro k k' hk
    cases k with
    | zero => simp [prefixSum_zero]
    | succ m =>
      cases k' with
      | zero => omega
      | succ m' =>
        rw [prefixSum_cons_succ, prefixSum_cons_succ]
        have := ih m m' (by omega)
        omega

theorem prefixSum_le_cons (a : Nat) (l : List Nat) (ha : ∀ x ∈ l, x ≤ a) :
    ∀ k, prefixSum l k ≤ prefixSum (a :: l) k := by
  induction l with
  | nil => intro k; simp [prefixSum_nil]
  | cons b rest ih =>
    intro k
    cases k with
    | zero => simp [prefixSum_zero]
    | succ m =>
      rw [prefixSum_cons_succ, prefixSum_cons_succ]
      cases m with
      | zero =>
        rw [prefixSum_zero, prefixSum_zero]
        have := ha b (by simp)
        omega
      | succ j =>
        rw [prefixSum_cons_succ]
        have h1 := ih (fun x hx => ha x (by simp [hx])) (j + 1)
        rw [prefixSum_cons_succ] at h1
        have hb := ha b (by simp)
        omega

theorem sum_sublist_le_prefixSum (s : List Nat)
    (hs : List.Pairwise (fun a b => b ≤ a) s) :
    ∀ t : List Nat, t.Sublist s → t.sum ≤ prefixSum s t.length := by
  induction s with
  | nil =>
    intro t ht
    rw [List.sublist_nil.mp ht]
    simp [prefixSum_nil]
  | cons a rest ih =>
    intro t ht
    rw [List.pairwise_cons] at hs
    obtain ⟨ha, hrest⟩ := hs
    cases ht with
    | cons _ ht' =>
      have h1 := ih hrest t ht'
      have h2 := prefixSum_le_cons a rest (fun x hx => ha x hx) t.length
      omega
    | cons₂ _ ht' =>
      rename_i t'
      have h1 := ih hrest t' ht'
      rw [List.sum_cons, List.length_cons, prefixSum_cons_succ]
      omega

theorem prefixSum_le_sorted (amts samts : List Nat) (hperm : List.Perm amts samts)
    (hsorted : List.Pairwise (fun a b => b ≤ a) samts) (k : Nat) :
    prefixSum amts k ≤ prefixSum samts k := by
  have hsub : (amts.take k).Subperm samts :=
    List.Subperm.trans (List.Sublist.subperm (List.take_sublist k amts))
      (List.Perm.subperm hperm)
  obtain ⟨t', ht'perm, ht'sub⟩ := hsub
  have h1 : t'.sum ≤ prefixSum samts t'.length :=
    sum_sublist_le_prefixSum samts hsorted t' ht'sub
  have h2 : t'.sum = (amts.take k).sum := List.Perm.sum_eq ht'perm
  have h3 : t'.length = (amts.take k).length := List.Perm.length_eq ht'perm
  have h4 : (amts.take k).length ≤ k := by
    simp [List.length_take]
  have h5 := prefixSum_mono samts t'.length k (by omega)
  have h6 : prefixSum amts k = (amts.take k).sum := rfl
  omega

theorem fifoCount_le_length (amts : List Nat) : ∀ t, fifoCount amts t ≤ amts.length := by
  induction amts with
  | nil => intro t; simp [fifoCount]
  | cons a rest ih =>
    intro t
    by_cases hta : t ≤ a
    · simp [fifoCount, hta]
    · simp only [fifoCount, if_neg hta, List.length_cons]
      have := ih (t - a)
      omega

theorem fifoCount_le_of_prefixSum (amts : List Nat) :
    ∀ t k, 0 < t → t ≤ prefixSum amts k → fifoCount amts t ≤ k := by
  induction amts with
  | nil =>
    intro t k ht hp
    rw [prefixSum_nil] at hp
    omega
  | cons a rest ih =>
    intro t k ht hp
    cases k with
    | zero =>
      rw [prefixSum_zero] at hp
      omega
    | succ m =>
      rw [prefixSum_cons_succ] at hp
      by_cases hta : t ≤ a
      · simp [fifoCount, hta]
      · simp only [fifoCount, if_neg hta]
        have := ih (t - a) m (by omega) (by omega)
        omega

theorem fifoCount_spec (amts : List Nat) :
    ∀ t, fifoCount amts t = amts.length ∨ t ≤ prefixSum amts (fifoCount amts t) := by
  induction amts with
  | nil => intro t; left; simp [fifoCount]
  | cons a rest ih =>
    intro t
    by_cases hta : t ≤ a
    · right
      simp only [fifoCount, if_pos hta, prefixSum_cons_succ, prefixSum_zero]
      omega
    · simp only [fifoCount, if_neg hta, List.length_cons]
      rcases ih (t - a) with h | h
      · left
        omega
      · right
        have hcomm : 1 + fifoCount rest (t - a) = fifoCount rest (t - a) + 1 := by omega
        rw [hcomm, prefixSum_cons_succ]
        omega

theorem selectLoop_exact (T : Nat) :
    ∀ (l sel : List UTXO) (tot : Nat),
      tot + sumAmounts l < W64 → tot < T →
      selectLoop T l sel tot
        = (sel ++ l.take (fifoCount (l.map UTXO.Amount) (T - tot)),
           tot + prefixSum (l.map UTXO.Amount) (fifoCount (l.map UTXO.Amount) (T - tot))) := by
  intro l
  induction l with
  | nil =>
    intro sel tot _ _
    simp [selectLoop, fifoCount, prefixSum_zero]
  | cons u rest ih =>
    intro sel tot hW hT
    have hsums : sumAmounts (u :: rest) = u.Amount + sumAmounts rest := by
      simp [sumAmounts]
    have hnw : (tot + u.Amount) % W64 = tot + u.Amount :=
      Nat.mod_eq_of_lt (by omega)
    show (if T ≤ (tot + u.Amount) % W64 then (sel ++ [u], (tot + u.Amount) % W64)
          else selectLoop T rest (sel ++ [u]) ((tot + u.Amount) % W64)) = _
    by_cases hstop : T ≤ tot + u.Amount
    · rw [if_pos (by omega : T ≤ (tot + u.Amount) % W64), hnw]
      have hcnt : fifoCount ((u :: rest).map UTXO.Amount) (T - tot) = 1 := by
        simp only [List.map_cons, fifoCount, if_pos (by omega : T - tot ≤ u.Amount)]
      rw [hcnt]
      simp only [List.take_succ_cons, List.take_zero, List.map_cons,
        prefixSum_cons_succ, prefixSum_zero]
      rw [Prod.mk.injEq]
      exact ⟨rfl, by omega⟩
    · rw [if_neg (by omega : ¬ T ≤ (tot + u.Amount) % W64), hnw,
        ih (sel ++ [u]) (tot + u.Amount) (by omega) (by omega)]
      have hcnt : fifoCount ((u :: rest).map UTXO.Amount) (T - tot)
          = 1 + fifoCount (rest.map UTXO.Amount) (T - (tot + u.Amount)) := by
        simp only [List.map_cons, fifoCount, if_neg (by omega : ¬ T - tot ≤ u.Amount)]
        have : T - tot - u.Amount = T - (tot + u.Amount) := by omega
        rw [this]
      rw [hcnt]
      have hone : 1 + fifoCount (rest.map UTXO.Amount) (T - (tot + u.Amount))
          = fifoCount (rest.map UTXO.Amount) (T - (tot + u.Amount)) + 1 := by omega
      rw [hone]
      simp only [List.take_succ_cons, List.map_cons, prefixSum_cons_succ]
      rw [Prod.mk.injEq]
      exact ⟨by simp [List.append_assoc], by omega⟩

/-- Claim C7 (amended): when the exact sum of all amounts fits in
`uint64` (no wraparound during accumulation), LargestFirst never
selects more UTXOs than FIFO to cover the same target, whenever both
succeed. (With wraparound the code violates this — see the
counterexample.) -/
theorem largestFirst_count_le_fifo (l : List UTXO) (T : Nat)
    (hsum : sumAmounts l < W64) (selF selL : List UTXO) (totF totL : Nat)
    (hF : SelectUTXOs l T AlgorithmFIFO = .ok (selF, totF))
    (hL : SelectUTXOs l T AlgorithmLargestFirst = .ok (selL, totL)) :
    selL.length ≤ selF.length := by
  by_cases hl : l = []
  · simp [SelectUTXOs, hl] at hF
  by_cases hT : T = 0
  · simp [SelectUTXOs, hl, hT] at hF
  have hT0 : 0 < T := by omega
  have hsumS : sumAmounts (sortDesc l) = sumAmounts l := sumAmounts_perm (sortDesc_perm l)
  have hexF := selectLoop_exact T l [] 0 (by omega) (by omega)
  have hexL := selectLoop_exact T (sortDesc l) [] 0 (by omega) (by omega)
  rw [Nat.sub_zero] at hexF hexL
  have hFIFO : selectFIFO l T
      = (l.take (fifoCount (l.map UTXO.Amount) T),
         prefixSum (l.map UTXO.Amount) (fifoCount (l.map UTXO.Amount) T)) := by
    rw [selectFIFO, hexF]
    simp
  have hLF : selectLargestFirst l T
      = ((sortDesc l).take (fifoCount ((sortDesc l).map UTXO.Amount) T),
         prefixSum ((sortDesc l).map UTXO.Amount)
           (fifoCount ((sortDesc l).map UTXO.Amount) T)) := by
    rw [selectLargestFirst, selectFIFO, hexL]
    simp
  simp only [SelectUTXOs, if_neg hl, if_neg hT, if_pos rfl, if_true, hFIFO] at hF
  have hne : AlgorithmLargestFirst ≠ AlgorithmFIFO := by decide
  simp only [SelectUTXOs, if_neg hl, if_neg hT, if_neg hne, if_pos rfl, if_true, hLF] at hL
  by_cases hinsF : prefixSum (l.map UTXO.Amount) (fifoCount (l.map UTXO.Amount) T) < T
  · simp [hinsF] at hF
  by_cases hinsL : prefixSum ((sortDesc l).map UTXO.Amount)
      (fifoCount ((sortDesc l).map UTXO.Amount) T) < T
  · simp [hinsL] at hL
  simp only [if_neg hinsF] at hF
  simp only [if_neg hinsL] at hL
  have hselF : l.take (fifoCount (l.map UTXO.Amount) T) = selF :=
    congrArg Prod.fst (Except.ok.inj hF)
  have hselL : (sortDesc l).take (fifoCount ((sortDesc l).map UTXO.Amount) T) = selL :=
    congrArg Prod.fst (Except.ok.inj hL)
  have hlenF : selF.length = min (fifoCount (l.map UTXO.Amount) T) l.length := by
    rw [← hselF, List.length_take]
  have hlenL : selL.length
      = min (fifoCount ((sortDesc l).map UTXO.Amount) T) (sortDesc l).length := by
    rw [← hselL, List.length_take]
  have hlens : (sortDesc l).length = l.length := List.Perm.length_eq (sortDesc_perm l)
  have hmaplen : (l.map UTXO.Amount).length = l.length := List.length_map _ _
  rcases fifoCount_spec (l.map UTXO.Amount) T with hc | hc
  · have hcl := fifoCount_le_length ((sortDesc l).map UTXO.Amount) T
    rw [List.length_map, hlens] at hcl
    omega
  · have hperm : List.Perm (l.map UTXO.Amount) ((sortDesc l).map UTXO.Amount) :=
      List.Perm.map UTXO.Amount (List.Perm.symm (sortDesc_perm l))
    have hsorted : List.Pairwise (fun a b => b ≤ a) ((sortDesc l).map UTXO.Amount) :=
      List.pairwise_map.mpr (sortDesc_sorted l)
    have hdom := prefixSum_le_sorted (l.map UTXO.Amount) ((sortDesc l).map UTXO.Amount)
      hperm hsorted (fifoCount (l.map UTXO.Amount) T)
    have hcle := fifoCount_le_of_prefixSum ((sortDesc l).map UTXO.Amount) T
      (fifoCount (l.map UTXO.Amount) T) hT0 (by omega)
    omega

/-- Counterexample for **C7** as frozen: with `uint64` wraparound in the
running total (amounts around 2^63), FIFO covers the target
2^63+100 with 2 UTXOs while LargestFirst needs 3, although both
succeed — so LargestFirst can select strictly more than FIFO. -/
theorem largestFirst_more_than_fifo_example :
    (SelectUTXOs [mkUTXO 9223372036854775809, mkUTXO 99, mkUTXO 9223372036854775858,
        mkUTXO 9223372036854775888] 9223372036854775908 AlgorithmFIFO).map
        (fun p => p.1.length) = .ok 2
    ∧ (SelectUTXOs [mkUTXO 9223372036854775809, mkUTXO 99, mkUTXO 9223372036854775858,
        mkUTXO 9223372036854775888] 9223372036854775908 AlgorithmLargestFirst).map
        (fun p => p.1.length) = .ok 3 :=
  ⟨rfl, rfl⟩

/-- Witness for **C7** on amounts [2, 5] with target 5: FIFO selects
both, LargestFirst selects only the 5. -/
theorem largestFirst_count_le_fifo_witness :
    sumAmounts [mkUTXO 2, mkUTXO 5] < W64
    ∧ SelectUTXOs [mkUTXO 2, mkUTXO 5] 5 AlgorithmFIFO = .ok ([mkUTXO 2, mkUTXO 5], 7)
    ∧ SelectUTXOs [mkUTXO 2, mkUTXO 5] 5 AlgorithmLargestFirst = .ok ([mkUTXO 5], 5)
    ∧ ([mkUTXO 5] : List UTXO).length ≤ ([mkUTXO 2, mkUTXO 5] : List UTXO).length :=
  ⟨by decide, rfl, rfl,
   largestFirst_count_le_fifo [mkUTXO 2, mkUTXO 5] 5 (by decide)
     [mkUTXO 2, mkUTXO 5] [mkUTXO 5] 7 5 rfl rfl⟩

/-- Witness for **C3** at version 0, payload [1, 2, 3]. -/
theorem base58Check_round_trip_witness :
    (0 : Nat) < 256 ∧ (∀ b ∈ [1, 2, 3], b < 256)
    ∧ DecodeBase58Check (EncodeBase58Check 0 [1, 2, 3]) = .ok (0, [1, 2, 3]) :=
  ⟨by decide, by decide, base58Check_round_trip 0 [1, 2, 3] (by decide) (by decide)⟩
